import Mathlib

/-!
Formal model of the concurrent filename search engine of the file-finder
repository (source file `main.py`).  Python strings are modelled as lists of
characters, the filesystem as a function from a directory path to either a
listing error or a list of directory entries, and the queue-driven worker loop
as a fuel-indexed recursion.  The worker, the idle/termination detector, the
extension validation and the event emission are translated directly from the
source; claim-side definitions (translated from the specification wording
instead) are marked as such in their doc comments.
-/

set_option maxRecDepth 4000

namespace FileFinder

/-- Strings from the Python source are modelled as explicit lists of characters. -/
abbrev Str : Type := List Char

/-- The upper-to-lower case table of the ASCII letters. -/
def caseTable : List (Char × Char) :=
  ("ABCDEFGHIJKLMNOPQRSTUVWXYZ".toList).zip ("abcdefghijklmnopqrstuvwxyz".toList)

/-- Replace a character by its image under a substitution table, leaving
characters outside the table unchanged. -/
def applyTable : List (Char × Char) → Char → Char
  | [], c => c
  | (u, l) :: rest, c => if c = u then l else applyTable rest c

/-- ASCII lower-casing of a single character, modelling Python `str.lower`
on the ASCII range (the only range the repository relies on). -/
def lowerChar (c : Char) : Char := applyTable caseTable c

/-- Python `s.lower()`. -/
def pyLower (s : Str) : Str := s.map lowerChar

/-- Python whitespace characters stripped by `str.strip()` (ASCII range). -/
def isPyWs (c : Char) : Bool :=
  c = ' ' || c = '\t' || c = '\n' || c = '\r' || c = '\x0b' || c = '\x0c'

/-- Python `s.strip()`: remove leading and trailing whitespace. -/
def pyStrip (s : Str) : Str :=
  ((s.dropWhile isPyWs).reverse.dropWhile isPyWs).reverse

/-- Python `s.lstrip(".")`: remove every leading dot
(`main.py` lines 36, 85, 339). -/
def lstripDots (s : Str) : Str := s.dropWhile (fun c => c = '.')

/-- Does `needle` occur at the very start of `hay`?  Building block for the
Python substring operator. -/
def startsWith : Str → Str → Bool
  | [], _ => true
  | _ :: _, [] => false
  | a :: as, b :: bs => (a = b) && startsWith as bs

/-- Python `needle in hay` on strings: contiguous substring containment
(`main.py` line 82). -/
def containsSub (needle : Str) : Str → Bool
  | [] => startsWith needle []
  | hay@(_ :: bs) => startsWith needle hay || containsSub needle bs

/-- Python `text.split(",")` (`main.py` line 339). -/
def splitComma : Str → List Str
  | [] => [[]]
  | c :: rest =>
      let r := splitComma rest
      if c = ',' then [] :: r
      else
        match r with
        | [] => [[c]]
        | h :: t => (c :: h) :: t

/-- One character of `re.fullmatch(r"[A-Za-z0-9]+", p)` (`main.py` line 345). -/
def isAlnumChar (c : Char) : Bool :=
  ('A' ≤ c && c ≤ 'Z') || ('a' ≤ c && c ≤ 'z') || ('0' ≤ c && c ≤ '9')

/-- `re.fullmatch(r"[A-Za-z0-9]+", p)` succeeds: nonempty and all alphanumeric. -/
def isAlnumStr (s : Str) : Bool := !s.isEmpty && s.all isAlnumChar

/-- Index of the last dot of a filename, if any. -/
def lastDotIdx : Str → Option Nat
  | [] => none
  | c :: rest =>
      match lastDotIdx rest with
      | some j => some (j + 1)
      | none => if c = '.' then some 0 else none

/-- `os.path.splitext(name)[1]` for a bare filename (no path separators),
following CPython `genericpath._splitext`: the extension starts at the last
dot, but is empty when every character before that dot is itself a dot
(so purely leading dots, as in dotfiles, yield no extension). -/
def splitextExt (name : Str) : Str :=
  match lastDotIdx name with
  | none => []
  | some i => if (name.take i).any (fun c => !(c = '.')) then name.drop i else []

/-- The extension the worker compares against the filter:
`os.path.splitext(entry.name)[1].lower().lstrip(".")` (`main.py` line 85). -/
def codeFilterExt (name : Str) : Str := lstripDots (pyLower (splitextExt name))

/-- Kind of a directory entry as classified by `os.DirEntry` with
`follow_symlinks=False`; `accessDenied` stands for an entry whose
classification raises `PermissionError` (`main.py` lines 89-90). -/
inductive EKind : Type
  | dir
  | file
  | symlinkDir
  | symlinkFile
  | other
  | accessDenied
deriving DecidableEq

/-- A directory entry produced by `os.scandir`; its full path is the scanned
directory joined with this name. -/
structure Entry : Type where
  name : Str
  kind : EKind
deriving DecidableEq

/-- Failure modes of `os.scandir` caught by the worker (`main.py` line 91). -/
inductive ListErr : Type
  | permissionError
  | fileNotFound
deriving DecidableEq

/-- The filesystem: a directory path either fails to list or yields entries. -/
abbrev Fs : Type := Str → Except ListErr (List Entry)

/-- The immutable search parameters held by `FileSearchThread` after
`__init__`: the query, the case flag and the normalized extension filter. -/
structure SearchConfig : Type where
  filename : Str
  caseSensitive : Bool
  allowedExts : Option (List Str)
deriving DecidableEq

/-- `__init__` normalization of the extension filter (`main.py` lines 34-40):
a falsy argument becomes `none`, otherwise each kept token is stripped,
has leading dots removed, and is lower-cased. -/
def initAllowedExts (inp : Option (List Str)) : Option (List Str) :=
  match inp with
  | none => none
  | some l =>
      if l.isEmpty then none
      else
        some ((l.filter fun e => !e.isEmpty && !(pyStrip e).isEmpty).map
          fun e => pyLower (lstripDots (pyStrip e)))

/-- Case normalization applied to both the query and each filename
(`main.py` lines 51 and 81). -/
def normCase (caseSensitive : Bool) (s : Str) : Str :=
  if caseSensitive then s else pyLower s

/-- The prepared search target: `self.filename if self.case_sensitive else
self.filename.lower()` (`main.py` line 51). -/
def targetOf (cfg : SearchConfig) : Str := normCase cfg.caseSensitive cfg.filename

/-- The name test of the worker: `target and (target in name_to_check)`
(`main.py` line 82). -/
def nameMatches (cfg : SearchConfig) (name : Str) : Bool :=
  !(targetOf cfg).isEmpty &&
    containsSub (targetOf cfg) (normCase cfg.caseSensitive name)

/-- The extension filter of the worker (`main.py` lines 84-87): a falsy
filter (absent or empty) constrains nothing, otherwise the normalized
extension must be a member. -/
def extFilterOk (allowed : Option (List Str)) (name : Str) : Bool :=
  match allowed with
  | none => true
  | some exts => exts.isEmpty || exts.contains (codeFilterExt name)

/-- Does the worker emit a match for this entry (`main.py` lines 80-88)?
Only regular files (checked without following symbolic links) whose name
matches the query and whose extension passes the filter. -/
def entryEmit (cfg : SearchConfig) (e : Entry) : Bool :=
  e.kind == EKind.file && nameMatches cfg e.name && extFilterOk cfg.allowedExts e.name

/-- `entry.path` of a child of directory `d`: `os.scandir` joins the scanned
directory with the entry name. -/
def childPath (d : Str) (name : Str) : Str := d ++ '/' :: name

/-- One `os.scandir` pass of the worker over directory `d`
(`main.py` lines 74-93): first component the subdirectory paths pushed back
onto the queue, second component the match paths emitted, both in listing
order; a directory whose listing fails contributes nothing. -/
def scanDir (cfg : SearchConfig) (fs : Fs) (d : Str) : List Str × List Str :=
  match fs d with
  | Except.error _ => ([], [])
  | Except.ok entries =>
      ((entries.filter fun e => e.kind == EKind.dir).map (fun e => childPath d e.name),
       (entries.filter fun e => entryEmit cfg e).map (fun e => childPath d e.name))

/-- The worker loop (`main.py` lines 62-107), sequentialized: `fuel` bounds
the number of iterations, `k` numbers the iterations (each emission is tagged
with the iteration that produced it), `stop k` is the value the pre-pop check
of the stop event observes at iteration `k`, and the queue holds directory
paths with `none` as the shutdown sentinel.  An observed stop or a popped
sentinel ends the loop; otherwise the popped directory is scanned, its
matches are emitted and its subdirectories are appended to the FIFO queue. -/
def workerRun (cfg : SearchConfig) (fs : Fs) (stop : Nat → Bool) :
    Nat → Nat → List (Option Str) → List (Nat × Str)
  | 0, _, _ => []
  | fuel + 1, k, q =>
      if stop k then []
      else
        match q with
        | [] => []
        | none :: _ => []
        | some d :: rest =>
            ((scanDir cfg fs d).2.map fun p => (k, p))
              ++ workerRun cfg fs stop fuel (k + 1)
                  (rest ++ (scanDir cfg fs d).1.map some)

/-- The match paths produced by a whole search over the given roots
(`main.py` lines 55-60 enqueue the roots, then the workers drain the queue). -/
def searchEmits (cfg : SearchConfig) (fs : Fs) (stop : Nat → Bool)
    (fuel : Nat) (roots : List Str) : List Str :=
  (workerRun cfg fs stop fuel 0 (roots.map some)).map Prod.snd

/-- The two signals a `FileSearchThread` can emit (`main.py` lines 24-25):
`found_file(str)` and the argumentless `finished`.  These are the only event
constructors the source declares. -/
inductive Event : Type
  | matchEv (path : Str)
  | finishedEv
deriving DecidableEq

/-- The strings pushed through `found_file` by the exception handler of
`run` (`main.py` lines 132-133): an exception `e` is reported as the single
pseudo-match `"Error: " + str(e)`. -/
def errStrs : Option Str → List Str
  | none => []
  | some e => [("Error: ".toList : Str) ++ e]

/-- The complete signal trace of one `FileSearchThread.run`
(`main.py` lines 42-135): the worker emissions, then (only when the body
raised, with `exc` the exception text) one `found_file` error string, then
the one `finished` signal of the `finally` block. -/
def fileSearchRun (cfg : SearchConfig) (fs : Fs) (stop : Nat → Bool)
    (fuel : Nat) (roots : List Str) (exc : Option Str) : List Event :=
  ((searchEmits cfg fs stop fuel roots ++ errStrs exc).map Event.matchEv)
    ++ [Event.finishedEv]

/-- The consumption of the trace by `FileFinderApp` (`main.py` lines 351-415):
`add_result` increments `_result_count` for every `found_file` signal and
`on_search_finished` turns the first `finished` signal into the terminal
status, which reports the running count together with the elapsed time. -/
def appRun (elapsed : Nat) : List Event → Nat → Option (Nat × Nat)
  | [], _ => none
  | Event.matchEv _ :: rest, c => appRun elapsed rest (c + 1)
  | Event.finishedEv :: _, c => some (c, elapsed)

/-- Why the idle-detection loop of `run` ended (`main.py` lines 115-124). -/
inductive ExitReason : Type
  | cancelled
  | completed
deriving DecidableEq

/-- The idle/termination detection loop of `run` (`main.py` lines 115-124),
with `t` counting the primitive observations: each iteration first reads the
stop event at time `t`; when it is clear it reads queue emptiness at `t + 1`;
on emptiness it sleeps the 0.5 s grace interval and re-reads emptiness at
`t + 2`, concluding completion only when the queue is still empty; otherwise
it sleeps briefly and iterates.  Returns the exit reason and the time of the
deciding observation, or `none` when `fuel` runs out. -/
def coordLoop (stop emptyObs : Nat → Bool) : Nat → Nat → Option (ExitReason × Nat)
  | 0, _ => none
  | fuel + 1, t =>
      if stop t then some (ExitReason.cancelled, t)
      else if emptyObs (t + 1) then
        if emptyObs (t + 2) then some (ExitReason.completed, t + 2)
        else coordLoop stop emptyObs fuel (t + 3)
      else coordLoop stop emptyObs fuel (t + 2)

/-- The shutdown actions of `run` after the detection loop ends
(`main.py` lines 126-135). -/
inductive CAct : Type
  | pushSentinel
  | waitWorkers
  | signalFinished
deriving DecidableEq

/-- The shutdown sequence of `run` (`main.py` lines 126-135): one `None`
sentinel pushed per worker, then `concurrent.futures.wait` on all workers,
then the `finished` signal of the `finally` block. -/
def coordShutdown (maxWorkers : Nat) : List CAct :=
  List.replicate maxWorkers CAct.pushSentinel ++ [CAct.waitWorkers, CAct.signalFinished]

/-- Occurrence count of one action in an action list. -/
def countAct (a : CAct) : List CAct → Nat
  | [] => 0
  | b :: rest => (if b = a then 1 else 0) + countAct a rest

/-- The kept, normalized tokens of `parse_extensions` (`main.py` line 339):
split on commas, drop whitespace-only pieces, strip surrounding whitespace
and every leading dot from the rest. -/
def normTokens (text : Str) : List Str :=
  (splitComma text).filterMap fun p =>
    if (pyStrip p).isEmpty then none else some (lstripDots (pyStrip p))

/-- The tokens `parse_extensions` rejects (`main.py` lines 342-346): kept
tokens that are not purely alphanumeric after normalization. -/
def invalidTokens (text : Str) : List Str :=
  (normTokens text).filter fun p => !(isAlnumStr p)

/-- `", ".join(invalid)` style joining used in the error message. -/
def joinSep (sep : Str) : List Str → Str
  | [] => []
  | [x] => x
  | x :: y :: ys => x ++ sep ++ joinSep sep (y :: ys)

/-- The `ValueError` message of `parse_extensions` (`main.py` line 348). -/
def errMessage (invalid : List Str) : Str :=
  ("Invalid extension(s): ".toList : Str) ++ joinSep (", ".toList) invalid
    ++ ("\nUse comma-separated alphanumeric extensions, e.g. \x27py,txt\x27".toList : Str)

/-- `FileFinderApp.parse_extensions` (`main.py` lines 332-349): `none` for a
blank input or no kept tokens, the kept normalized tokens on success, and the
list of invalid tokens (which the raised `ValueError` message names) on
failure. -/
def parse_extensions (text : Str) : Except (List Str) (Option (List Str)) :=
  if text.isEmpty then Except.ok none
  else
    let parts := normTokens text
    if parts.isEmpty then Except.ok none
    else
      let invalid := invalidTokens text
      if invalid.isEmpty then Except.ok (some parts) else Except.error invalid

/-- Outcome of `FileFinderApp.start_search` (`main.py` lines 246-290):
an empty query returns without doing anything, invalid extensions show a
warning box and return before any thread is created, and otherwise a
`FileSearchThread` is started with the validated configuration. -/
inductive StartResult : Type
  | noop
  | configError (msg : Str)
  | started (cfg : SearchConfig)
deriving DecidableEq

/-- `FileFinderApp.start_search` (`main.py` lines 246-290), restricted to the
request validation and thread construction the claims are about. -/
def start_search (queryText extText : Str) (caseSensitive : Bool) : StartResult :=
  let filename := pyStrip queryText
  if filename.isEmpty then StartResult.noop
  else
    let extT := pyStrip extText
    match (if !extT.isEmpty then parse_extensions extT else Except.ok none) with
    | Except.error invalid => StartResult.configError (errMessage invalid)
    | Except.ok allowed =>
        StartResult.started ⟨filename, caseSensitive, initAllowedExts allowed⟩

/-- The filename component of a path: the suffix after the last separator. -/
def basename (p : Str) : Str := (p.reverse.takeWhile fun c => !(c = '/')).reverse

/-- Claim-side definition, from the wording of claim C5 (not from the
source): normalize a token by stripping one optional leading dot. -/
def stripOneDot : Str → Str
  | '.' :: rest => rest
  | s => s

/-- Claim-side definition, from the wording of claim C5 (not from the
source): a token the claim calls invalid, that is, not purely alphanumeric
after stripping an optional leading dot. -/
def claimTokenInvalid (p : Str) : Bool := !(isAlnumStr (stripOneDot p))

/-- Claim-side definition, from the wording of claim C10 (not from the
source): the final dot-suffix of the filename, lower-cased, empty when the
name has no dot. -/
def specExt (name : Str) : Str :=
  match lastDotIdx name with
  | none => []
  | some i => pyLower (name.drop (i + 1))

/-- Concrete filesystem for the scenario of claim C2: root `/tmp/a` holds the
subdirectories `x` and `y`, which hold `report.TXT` and `report.md`. -/
def demoFs : Fs := fun d =>
  if d = ("/tmp/a".toList : Str) then
    Except.ok [⟨"x".toList, EKind.dir⟩, ⟨"y".toList, EKind.dir⟩]
  else if d = ("/tmp/a/x".toList : Str) then
    Except.ok [⟨"report.TXT".toList, EKind.file⟩]
  else if d = ("/tmp/a/y".toList : Str) then
    Except.ok [⟨"report.md".toList, EKind.file⟩]
  else Except.error ListErr.fileNotFound

/-- The configuration of the scenario of claim C2: query `report`,
case-insensitive, filter `{txt}`. -/
def demoCfg : SearchConfig := ⟨"report".toList, false, some ["txt".toList]⟩

/-- Concrete filesystem with one listable root holding one matching file and
every other directory failing to list. -/
def fsOneGood : Fs := fun d =>
  if d = ("/good".toList : Str) then
    Except.ok [⟨"hit.txt".toList, EKind.file⟩]
  else Except.error ListErr.permissionError

/-- Configuration used with `fsOneGood`: query `hit`, no filter. -/
def cfgHit : SearchConfig := ⟨"hit".toList, false, none⟩

/-- Concrete filesystem whose root holds a symbolic link to a matching file,
a symbolic link to a directory, a regular matching file, a non-regular entry
and a regular subdirectory. -/
def fsLinks : Fs := fun d =>
  if d = ("/r".toList : Str) then
    Except.ok [⟨"s.txt".toList, EKind.symlinkFile⟩, ⟨"sd".toList, EKind.symlinkDir⟩,
      ⟨"real.txt".toList, EKind.file⟩, ⟨"o.txt".toList, EKind.other⟩,
      ⟨"sub".toList, EKind.dir⟩]
  else Except.error ListErr.fileNotFound

/-- Configuration used with `fsLinks`: query `txt`, no filter. -/
def cfgLinks : SearchConfig := ⟨"txt".toList, false, none⟩

theorem startsWith_append (p t : Str) : startsWith p (p ++ t) = true := by
  induction p with
  | nil => rfl
  | cons a as ih => simp [startsWith, ih]

theorem startsWith_extend (p : Str) :
    ∀ h t : Str, startsWith p h = true → startsWith p (h ++ t) = true := by
  induction p with
  | nil => intro h t _; rfl
  | cons a as ih =>
      intro h t hs
      cases h with
      | nil => simp [startsWith] at hs
      | cons b bs =>
          simp only [startsWith, Bool.and_eq_true, decide_eq_true_eq] at hs
          simp only [List.cons_append, startsWith, Bool.and_eq_true, decide_eq_true_eq]
          exact ⟨hs.1, ih bs t hs.2⟩

theorem containsSub_of_startsWith {p h : Str} (hs : startsWith p h = true) :
    containsSub p h = true := by
  cases h with
  | nil => exact hs
  | cons b bs => simp [containsSub, hs]

theorem containsSub_nil_left : ∀ t : Str, containsSub [] t = true := by
  intro t
  cases t with
  | nil => rfl
  | cons b bs => simp [containsSub, startsWith]

theorem containsSub_append_left (p : Str) :
    ∀ x s : Str, containsSub p s = true → containsSub p (x ++ s) = true := by
  intro x
  induction x with
  | nil => intro s h; simpa using h
  | cons a as ih =>
      intro s h
      have hrec := ih s h
      simp only [List.cons_append, containsSub, Bool.or_eq_true]
      exact Or.inr hrec

theorem containsSub_append_right (p : Str) :
    ∀ s t : Str, containsSub p s = true → containsSub p (s ++ t) = true := by
  intro s
  induction s with
  | nil =>
      intro t h
      cases p with
      | nil => exact containsSub_nil_left t
      | cons a as => simp [containsSub, startsWith] at h
  | cons c cs ih =>
      intro t h
      simp only [containsSub, Bool.or_eq_true] at h
      simp only [List.cons_append, containsSub, Bool.or_eq_true]
      rcases h with h | h
      · exact Or.inl (by simpa using startsWith_extend p (c :: cs) t h)
      · exact Or.inr (ih t h)

theorem containsSub_self (p : Str) : containsSub p p = true :=
  containsSub_of_startsWith (by simpa using startsWith_append p [])

theorem containsSub_joinSep (sep : Str) :
    ∀ (l : List Str) (p : Str), p ∈ l → containsSub p (joinSep sep l) = true := by
  intro l
  induction l with
  | nil => intro p h; cases h
  | cons x xs ih =>
      intro p h
      rcases List.mem_cons.mp h with rfl | hmem
      · cases xs with
        | nil => exact containsSub_self p
        | cons y ys =>
            show containsSub p (p ++ sep ++ joinSep sep (y :: ys)) = true
            rw [List.append_assoc]
            exact containsSub_of_startsWith (startsWith_append p _)
      · cases xs with
        | nil => cases hmem
        | cons y ys =>
            show containsSub p (x ++ sep ++ joinSep sep (y :: ys)) = true
            rw [List.append_assoc]
            exact containsSub_append_left p x _
              (containsSub_append_left p sep _ (ih p hmem))

theorem containsSub_errMessage {invalid : List Str} {p : Str} (h : p ∈ invalid) :
    containsSub p (errMessage invalid) = true := by
  unfold errMessage
  rw [List.append_assoc]
  exact containsSub_append_left p _ _
    (containsSub_append_right p _ _ (containsSub_joinSep _ invalid p h))

theorem takeWhile_append_stop (p : Char → Bool) :
    ∀ (l : Str) (x : Char) (t : Str), (∀ c ∈ l, p c = true) → p x = false →
      List.takeWhile p (l ++ x :: t) = l := by
  intro l
  induction l with
  | nil => intro x t _ hx; simp [List.takeWhile_cons, hx]
  | cons a as ih =>
      intro x t hall hx
      have ha : p a = true := hall a (List.mem_cons_self a as)
      simp [List.takeWhile_cons, ha,
        ih x t (fun c hc => hall c (List.mem_cons_of_mem a hc)) hx]

theorem basename_childPath (d n : Str) (hn : ∀ c ∈ n, c ≠ '/') :
    basename (childPath d n) = n := by
  unfold basename childPath
  rw [List.reverse_append, List.reverse_cons, List.append_assoc, List.singleton_append]
  rw [takeWhile_append_stop _ n.reverse '/' d.reverse ?hall (by decide)]
  · exact List.reverse_reverse n
  case hall =>
    intro c hc
    have : c ≠ '/' := hn c (List.mem_reverse.mp hc)
    simpa using this

theorem applyTable_cases : ∀ (t : List (Char × Char)) (c : Char),
    applyTable t c = c ∨ applyTable t c ∈ t.map Prod.snd := by
  intro t
  induction t with
  | nil => intro c; exact Or.inl rfl
  | cons ul rest ih =>
      intro c
      obtain ⟨u, l⟩ := ul
      by_cases hc : c = u
      · simp [applyTable, hc]
      · rcases ih c with heq | hmem
        · exact Or.inl (by simpa [applyTable, hc] using heq)
        · refine Or.inr ?_
          have hred : applyTable ((u, l) :: rest) c = applyTable rest c := by
            simp [applyTable, hc]
          rw [hred, List.map_cons]
          exact List.mem_cons_of_mem _ hmem

theorem lowerChar_ne_dot {c : Char} (h : c ≠ '.') : lowerChar c ≠ '.' := by
  rcases applyTable_cases caseTable c with heq | hmem
  · unfold lowerChar
    rw [heq]
    exact h
  · exact (by decide : ∀ x ∈ caseTable.map Prod.snd, x ≠ '.') _ hmem

theorem pyLower_no_dot {s : Str} (h : '.' ∉ s) : '.' ∉ pyLower s := by
  intro hmem
  rcases List.mem_map.mp hmem with ⟨c, hc, hlc⟩
  exact lowerChar_ne_dot (fun hcd => h (hcd ▸ hc)) hlc

theorem lastDotIdx_none_iff : ∀ s : Str, lastDotIdx s = none ↔ '.' ∉ s := by
  intro s
  induction s with
  | nil => simp [lastDotIdx]
  | cons c rest ih =>
      simp only [lastDotIdx]
      cases hr : lastDotIdx rest with
      | some j =>
          have hd : '.' ∈ rest := by
            by_contra hnot
            rw [ih.mpr hnot] at hr
            cases hr
          simp [List.mem_cons, hd]
      | none =>
          by_cases hc : c = '.'
          · subst hc
            simp
          · simp [hc, List.mem_cons, Ne.symm hc, ih.mp hr]

theorem lastDotIdx_spec : ∀ (s : Str) (i : Nat), lastDotIdx s = some i →
    s.drop i = '.' :: s.drop (i + 1) ∧ '.' ∉ s.drop (i + 1) := by
  intro s
  induction s with
  | nil => intro i h; simp [lastDotIdx] at h
  | cons c rest ih =>
      intro i h
      simp only [lastDotIdx] at h
      cases hr : lastDotIdx rest with
      | some j =>
          rw [hr] at h
          injection h with h'
          subst h'
          simpa using ih j hr
      | none =>
          rw [hr] at h
          split_ifs at h with hc
          injection h with h'
          subst h'
          subst hc
          exact ⟨rfl, by simpa using (lastDotIdx_none_iff rest).mp hr⟩

theorem lstripDots_no_dot {l : Str} (hl : '.' ∉ l) : lstripDots l = l := by
  cases l with
  | nil => rfl
  | cons a as =>
      have ha : a ≠ '.' := fun h => hl (h ▸ List.mem_cons_self a as)
      simp [lstripDots, List.dropWhile_cons, ha]

theorem codeFilterExt_eq_specExt (name : Str) (i : Nat)
    (hidx : lastDotIdx name = some i)
    (hpre : (name.take i).any (fun c => !(c = '.')) = true) :
    codeFilterExt name = specExt name := by
  obtain ⟨hdrop, hnot⟩ := lastDotIdx_spec name i hidx
  unfold codeFilterExt splitextExt specExt
  rw [hidx]
  simp only [hpre, if_true]
  rw [hdrop]
  simp only [pyLower, List.map_cons]
  have hld : lowerChar '.' = '.' := by decide
  rw [hld]
  have hstep : lstripDots ('.' :: List.map lowerChar (name.drop (i + 1)))
      = lstripDots (List.map lowerChar (name.drop (i + 1))) := by
    simp [lstripDots, List.dropWhile_cons]
  rw [hstep]
  exact lstripDots_no_dot (pyLower_no_dot hnot)

theorem codeFilterExt_nodot {name : Str} (h : lastDotIdx name = none) :
    codeFilterExt name = [] := by
  simp [codeFilterExt, splitextExt, h, pyLower, lstripDots]

/-- The filesystem hands out entry names free of the path separator, as
`os.scandir` does. -/
def noSlashNames (fs : Fs) : Prop :=
  ∀ d entries e, fs d = Except.ok entries → e ∈ entries → ∀ c ∈ e.name, c ≠ '/'

theorem workerRun_emit_spec (cfg : SearchConfig) (fs : Fs) (stop : Nat → Bool) :
    ∀ (fuel k₀ : Nat) (q : List (Option Str)) (k : Nat) (p : Str),
      (k, p) ∈ workerRun cfg fs stop fuel k₀ q →
      ∃ d entries e, fs d = Except.ok entries ∧ e ∈ entries ∧
        p = childPath d e.name ∧ entryEmit cfg e = true := by
  intro fuel
  induction fuel with
  | zero => intro k₀ q k p h; simp [workerRun] at h
  | succ n ih =>
      intro k₀ q k p h
      cases hs : stop k₀ with
      | true => simp [workerRun, hs] at h
      | false =>
        cases q with
        | nil => simp [workerRun, hs] at h
        | cons o rest =>
            cases o with
            | none => simp [workerRun, hs] at h
            | some d =>
                simp only [workerRun, hs, Bool.false_eq_true, if_false] at h
                rcases List.mem_append.mp h with h1 | h2
                · rcases List.mem_map.mp h1 with ⟨p0, hp0, heq⟩
                  cases heq
                  rcases hfd : fs d with err | entries
                  · simp [scanDir, hfd] at hp0
                  · simp only [scanDir, hfd] at hp0
                    rcases List.mem_map.mp hp0 with ⟨e, he, hpath⟩
                    obtain ⟨hee, hemit⟩ := List.mem_filter.mp he
                    exact ⟨d, entries, e, hfd, hee, hpath.symm, hemit⟩
                · exact ih _ _ _ _ h2

theorem workerRun_tags (cfg : SearchConfig) (fs : Fs) (stop : Nat → Bool) :
    ∀ (fuel k₀ : Nat) (q : List (Option Str)) (k : Nat) (p : Str),
      (k, p) ∈ workerRun cfg fs stop fuel k₀ q → stop k = false ∧ k₀ ≤ k := by
  intro fuel
  induction fuel with
  | zero => intro k₀ q k p h; simp [workerRun] at h
  | succ n ih =>
      intro k₀ q k p h
      cases hs : stop k₀ with
      | true => simp [workerRun, hs] at h
      | false =>
        cases q with
        | nil => simp [workerRun, hs] at h
        | cons o rest =>
            cases o with
            | none => simp [workerRun, hs] at h
            | some d =>
                simp only [workerRun, hs, Bool.false_eq_true, if_false] at h
                rcases List.mem_append.mp h with h1 | h2
                · rcases List.mem_map.mp h1 with ⟨p0, _, heq⟩
                  cases heq
                  exact ⟨hs, Nat.le_refl _⟩
                · obtain ⟨hsf, hle⟩ := ih _ _ _ _ h2
                  exact ⟨hsf, Nat.le_of_succ_le hle⟩

theorem workerRun_all_error (cfg : SearchConfig) (fs : Fs) (stop : Nat → Bool) :
    ∀ (fuel k : Nat) (q : List (Option Str)),
      (∀ d, some d ∈ q → ∃ err, fs d = Except.error err) →
      workerRun cfg fs stop fuel k q = [] := by
  intro fuel
  induction fuel with
  | zero => intro k q _; rfl
  | succ n ih =>
      intro k q hq
      cases hs : stop k with
      | true => simp [workerRun, hs]
      | false =>
        cases q with
        | nil => simp [workerRun, hs]
        | cons o rest =>
            cases o with
            | none => simp [workerRun, hs]
            | some d =>
                obtain ⟨err, herr⟩ := hq d (List.mem_cons_self _ _)
                simp only [workerRun, hs, Bool.false_eq_true, if_false, scanDir, herr,
                  List.map_nil, List.nil_append, List.append_nil]
                exact ih (k + 1) rest (fun d' hd' => hq d' (List.mem_cons_of_mem _ hd'))

theorem countAct_replicate_append (a : CAct) :
    ∀ (w : Nat) (t : List CAct),
      countAct a (List.replicate w a ++ t) = w + countAct a t := by
  intro w
  induction w with
  | zero => intro t; simp [List.replicate, countAct]
  | succ n ih =>
      intro t
      rw [List.replicate_succ, List.cons_append]
      have h1 : countAct a (a :: (List.replicate n a ++ t))
          = 1 + countAct a (List.replicate n a ++ t) := by
        simp [countAct]
      rw [h1, ih t]
      omega

theorem appRun_skip_matches (elapsed : Nat) :
    ∀ (ms : List Str) (rest : List Event) (c : Nat),
      appRun elapsed (ms.map Event.matchEv ++ rest) c
        = appRun elapsed rest (c + ms.length) := by
  intro ms
  induction ms with
  | nil => intro rest c; simp
  | cons m ms ih =>
      intro rest c
      simp only [List.map_cons, List.cons_append, appRun, List.append_eq]
      rw [ih]
      congr 1
      simp [List.length_cons]
      omega

theorem coordLoop_exit (stop obs : Nat → Bool) :
    ∀ (fuel t : Nat) (r : ExitReason) (u : Nat),
      coordLoop stop obs fuel t = some (r, u) →
      (r = ExitReason.completed → 2 ≤ u ∧ obs (u - 1) = true ∧ obs u = true) ∧
      (r = ExitReason.cancelled → stop u = true) := by
  intro fuel
  induction fuel with
  | zero => intro t r u h; simp [coordLoop] at h
  | succ n ih =>
      intro t r u h
      rw [coordLoop] at h
      cases hs : stop t with
      | true =>
          simp only [hs, if_true] at h
          obtain ⟨hr, hu⟩ := Prod.mk.injEq .. ▸ Option.some.inj h
          subst hr
          subst hu
          refine ⟨fun hc => ?_, fun _ => hs⟩
          cases hc
      | false =>
          simp only [hs, Bool.false_eq_true, if_false] at h
          cases h1 : obs (t + 1) with
          | true =>
              simp only [h1, if_true] at h
              cases h2 : obs (t + 2) with
              | true =>
                  simp only [h2, if_true] at h
                  obtain ⟨hr, hu⟩ := Prod.mk.injEq .. ▸ Option.some.inj h
                  subst hr
                  subst hu
                  refine ⟨fun _ => ⟨by omega, ?_, h2⟩, fun hc => ?_⟩
                  · simpa using h1
                  · cases hc
              | false =>
                  simp only [h2, Bool.false_eq_true, if_false] at h
                  exact ih _ _ _ h
          | false =>
              simp only [h1, Bool.false_eq_true, if_false] at h
              exact ih _ _ _ h

theorem demoFs_noSlash : noSlashNames demoFs := by
  intro d entries e hfd he c hc
  unfold demoFs at hfd
  split_ifs at hfd <;>
    first
      | exact Except.noConfusion hfd
      | (injection hfd with h
         subst h
         fin_cases he <;> (intro hcs; subst hcs; revert hc; decide))

/-- C1: every match event a worker emits is for a path whose filename
contains the query string under the configured case sensitivity — compared
verbatim when `caseSensitive` is true and with both sides lower-cased when it
is false (`main.py` lines 50-51 and 80-88). -/
theorem C1_emitted_filename_contains_query
    (cfg : SearchConfig) (fs : Fs) (stop : Nat → Bool) (fuel : Nat)
    (q : List (Option Str)) (k : Nat) (p : Str)
    (hn : noSlashNames fs)
    (h : (k, p) ∈ workerRun cfg fs stop fuel 0 q) :
    targetOf cfg ≠ [] ∧
    containsSub (normCase cfg.caseSensitive cfg.filename)
      (normCase cfg.caseSensitive (basename p)) = true ∧
    (cfg.caseSensitive = true → containsSub cfg.filename (basename p) = true) ∧
    (cfg.caseSensitive = false →
      containsSub (pyLower cfg.filename) (pyLower (basename p)) = true) := by
  obtain ⟨d, entries, e, hfd, he, hpath, hemit⟩ :=
    workerRun_emit_spec cfg fs stop fuel 0 q k p h
  have hb : basename p = e.name := by
    rw [hpath]
    exact basename_childPath d e.name (hn d entries e hfd he)
  simp only [entryEmit, Bool.and_eq_true] at hemit
  have hm := hemit.1.2
  simp only [nameMatches, Bool.and_eq_true] at hm
  obtain ⟨hne, hcont⟩ := hm
  have hne' : targetOf cfg ≠ [] := by
    intro hnil
    rw [hnil] at hne
    simp at hne
  refine ⟨hne', ?_, ?_, ?_⟩
  · rw [hb]
    simpa [targetOf] using hcont
  · intro hcs
    rw [hb]
    simpa [targetOf, normCase, hcs] using hcont
  · intro hcs
    rw [hb]
    simpa [targetOf, normCase, hcs] using hcont

/-- C1 witness: in the scenario filesystem the match for `report.TXT` is
emitted and its filename contains the lower-cased query `report`. -/
theorem C1_emitted_filename_contains_query_witness :
    noSlashNames demoFs ∧
    (1, ("/tmp/a/x/report.TXT".toList : Str)) ∈
      workerRun demoCfg demoFs (fun _ => false) 10 0 [some ("/tmp/a".toList)] ∧
    (targetOf demoCfg ≠ [] ∧
     containsSub (normCase demoCfg.caseSensitive demoCfg.filename)
       (normCase demoCfg.caseSensitive
         (basename ("/tmp/a/x/report.TXT".toList))) = true ∧
     (demoCfg.caseSensitive = true →
       containsSub demoCfg.filename (basename ("/tmp/a/x/report.TXT".toList)) = true) ∧
     (demoCfg.caseSensitive = false →
       containsSub (pyLower demoCfg.filename)
         (pyLower (basename ("/tmp/a/x/report.TXT".toList))) = true)) :=
  ⟨demoFs_noSlash, by decide,
    C1_emitted_filename_contains_query demoCfg demoFs (fun _ => false) 10
      [some ("/tmp/a".toList)] 1 ("/tmp/a/x/report.TXT".toList)
      demoFs_noSlash (by decide)⟩

/-- C2: with a configured nonempty extension filter, every emitted match has
its normalized extension in the filter set (`main.py` lines 84-88); the
validated pipeline stores the filter lower-cased without dots
(`main.py` lines 34-40); and in the scenario with query `report`,
caseSensitive false and filter `{txt}`, exactly `/tmp/a/x/report.TXT` is
emitted — `report.TXT` matched, `report.md` not. -/
theorem C2_extension_filter_membership :
    (∀ (cfg : SearchConfig) (fs : Fs) (stop : Nat → Bool) (fuel : Nat)
       (q : List (Option Str)) (k : Nat) (p : Str) (exts : List Str),
       noSlashNames fs → cfg.allowedExts = some exts → exts ≠ [] →
       (k, p) ∈ workerRun cfg fs stop fuel 0 q →
       codeFilterExt (basename p) ∈ exts) ∧
    start_search ("report".toList) ("txt".toList) false
      = StartResult.started demoCfg ∧
    searchEmits demoCfg demoFs (fun _ => false) 10 ["/tmp/a".toList]
      = ["/tmp/a/x/report.TXT".toList] ∧
    (∀ name : Str, extFilterOk none name = true) := by
  refine ⟨?_, by decide, by decide, fun name => rfl⟩
  intro cfg fs stop fuel q k p exts hn hae hne h
  obtain ⟨d, entries, e, hfd, he, hpath, hemit⟩ :=
    workerRun_emit_spec cfg fs stop fuel 0 q k p h
  have hb : basename p = e.name := by
    rw [hpath]
    exact basename_childPath d e.name (hn d entries e hfd he)
  simp only [entryEmit, Bool.and_eq_true] at hemit
  have hext := hemit.2
  rw [hae] at hext
  simp only [extFilterOk, Bool.or_eq_true] at hext
  rcases hext with hemp | hcontains
  · exfalso
    apply hne
    cases exts with
    | nil => rfl
    | cons x xs => simp at hemp
  · rw [hb]
    simpa using hcontains

/-- C2 witness: feeding the scenario through the general membership part. -/
theorem C2_extension_filter_membership_witness :
    noSlashNames demoFs ∧
    demoCfg.allowedExts = some ["txt".toList] ∧
    (["txt".toList] : List Str) ≠ [] ∧
    (1, ("/tmp/a/x/report.TXT".toList : Str)) ∈
      workerRun demoCfg demoFs (fun _ => false) 10 0 [some ("/tmp/a".toList)] ∧
    codeFilterExt (basename ("/tmp/a/x/report.TXT".toList)) ∈ [("txt".toList : Str)] :=
  ⟨demoFs_noSlash, rfl, by decide, by decide,
    C2_extension_filter_membership.1 demoCfg demoFs (fun _ => false) 10
      [some ("/tmp/a".toList)] 1 ("/tmp/a/x/report.TXT".toList) ["txt".toList]
      demoFs_noSlash rfl (by decide) (by decide)⟩

/-- C4: once the pre-pop check of a worker observes the stop event (which,
as a `threading.Event`, stays set once set — the monotonicity hypothesis),
that worker emits no further match event: every emission carries an
iteration tag strictly before the first observed-set iteration
(`main.py` lines 63-65 and 137-142). -/
theorem C4_no_emission_after_observed_stop
    (cfg : SearchConfig) (fs : Fs) (stop : Nat → Bool) (fuel : Nat)
    (q : List (Option Str)) (kObs k : Nat) (p : Str)
    (hmono : ∀ i j : Nat, i ≤ j → stop i = true → stop j = true)
    (hobs : stop kObs = true)
    (h : (k, p) ∈ workerRun cfg fs stop fuel 0 q) :
    k < kObs := by
  obtain ⟨hks, _⟩ := workerRun_tags cfg fs stop fuel 0 q k p h
  by_contra hge
  push_neg at hge
  rw [hmono kObs k hge hobs] at hks
  cases hks

/-- C4 witness: with a stop event set from iteration 1 on, the single match
of `fsLinks` is emitted at iteration 0, before the observation. -/
theorem C4_no_emission_after_observed_stop_witness :
    (∀ i j : Nat, i ≤ j → (fun i => decide (1 ≤ i)) i = true
      → (fun i => decide (1 ≤ i)) j = true) ∧
    (fun i => decide (1 ≤ i)) 1 = true ∧
    (0, ("/r/real.txt".toList : Str)) ∈
      workerRun cfgLinks fsLinks (fun i => decide (1 ≤ i)) 3 0 [some ("/r".toList)] ∧
    0 < 1 :=
  ⟨fun i j hij hi => by simp only [decide_eq_true_eq] at hi ⊢; omega,
   by decide, by decide,
   C4_no_emission_after_observed_stop cfgLinks fsLinks (fun i => decide (1 ≤ i)) 3
     [some ("/r".toList)] 1 0 ("/r/real.txt".toList)
     (fun i j hij hi => by simp only [decide_eq_true_eq] at hi ⊢; omega)
     (by decide) (by decide)⟩

/-- C6: a dequeued directory whose listing fails is skipped silently — its
processing is exactly the processing of the remaining queue: nothing is
emitted for it, it is not re-enqueued, and the worker continues, so matches
elsewhere are still found (`main.py` lines 89-107). -/
theorem C6_unlistable_directory_skipped
    (cfg : SearchConfig) (fs : Fs) (stop : Nat → Bool) (fuel k : Nat)
    (d : Str) (rest : List (Option Str)) (err : ListErr)
    (hstop : stop k = false) (herr : fs d = Except.error err) :
    workerRun cfg fs stop (fuel + 1) k (some d :: rest)
      = workerRun cfg fs stop fuel (k + 1) rest := by
  simp only [workerRun, hstop, Bool.false_eq_true, if_false, scanDir, herr,
    List.map_nil, List.nil_append, List.append_nil]

/-- C6 witness: with an unlistable first root, the search degenerates to the
second root, whose match is still emitted. -/
theorem C6_unlistable_directory_skipped_witness :
    (fun _ : Nat => false) 0 = false ∧
    fsOneGood ("/bad".toList) = Except.error ListErr.permissionError ∧
    workerRun cfgHit fsOneGood (fun _ => false) 4 0
        [some ("/bad".toList), some ("/good".toList)]
      = workerRun cfgHit fsOneGood (fun _ => false) 3 1 [some ("/good".toList)] ∧
    (1, ("/good/hit.txt".toList : Str)) ∈
      workerRun cfgHit fsOneGood (fun _ => false) 4 0
        [some ("/bad".toList), some ("/good".toList)] :=
  ⟨rfl, rfl,
   C6_unlistable_directory_skipped cfgHit fsOneGood (fun _ => false) 3 0
     ("/bad".toList) [some ("/good".toList)] ListErr.permissionError rfl rfl,
   by decide⟩

/-- C9: every emitted match is backed by a directory entry classified as a
regular file without following symbolic links, every path pushed back on the
queue is backed by an entry classified as a real directory, and in the
concrete listing with symbolic links only the regular file is emitted and
only the regular subdirectory is enqueued (`main.py` lines 77-88). -/
theorem C9_regular_files_only :
    (∀ (cfg : SearchConfig) (fs : Fs) (stop : Nat → Bool) (fuel : Nat)
       (q : List (Option Str)) (k : Nat) (p : Str),
       (k, p) ∈ workerRun cfg fs stop fuel 0 q →
       ∃ d entries e, fs d = Except.ok entries ∧ e ∈ entries ∧
         p = childPath d e.name ∧ e.kind = EKind.file) ∧
    (∀ (cfg : SearchConfig) (fs : Fs) (d sub : Str),
       sub ∈ (scanDir cfg fs d).1 →
       ∃ entries e, fs d = Except.ok entries ∧ e ∈ entries ∧
         sub = childPath d e.name ∧ e.kind = EKind.dir) ∧
    scanDir cfgLinks fsLinks ("/r".toList)
      = ([childPath ("/r".toList) ("sub".toList)],
         [childPath ("/r".toList) ("real.txt".toList)]) := by
  refine ⟨?_, ?_, by decide⟩
  · intro cfg fs stop fuel q k p h
    obtain ⟨d, entries, e, hfd, he, hpath, hemit⟩ :=
      workerRun_emit_spec cfg fs stop fuel 0 q k p h
    simp only [entryEmit, Bool.and_eq_true] at hemit
    exact ⟨d, entries, e, hfd, he, hpath, by simpa using hemit.1.1⟩
  · intro cfg fs d sub hsub
    rcases hfd : fs d with err | entries
    · simp [scanDir, hfd] at hsub
    · simp only [scanDir, hfd] at hsub
      rcases List.mem_map.mp hsub with ⟨e, he, hpath⟩
      obtain ⟨hee, hdir⟩ := List.mem_filter.mp he
      exact ⟨entries, e, hfd ▸ rfl, hee, hpath.symm, by simpa using hdir⟩

/-- C9 witness: the emitted match of `fsLinks` is backed by the regular file
entry `real.txt`. -/
theorem C9_regular_files_only_witness :
    (0, ("/r/real.txt".toList : Str)) ∈
      workerRun cfgLinks fsLinks (fun _ => false) 3 0 [some ("/r".toList)] ∧
    (∃ d entries e, fsLinks d = Except.ok entries ∧ e ∈ entries ∧
      ("/r/real.txt".toList : Str) = childPath d e.name ∧ e.kind = EKind.file) :=
  ⟨by decide,
   C9_regular_files_only.1 cfgLinks fsLinks (fun _ => false) 3
     [some ("/r".toList)] 0 ("/r/real.txt".toList) (by decide)⟩

/-- C3: every run — over any filesystem, stop schedule and fuel (so natural
and cancelled terminations alike), with or without a body exception —
produces zero or more match events followed by exactly one terminal
`finished` event, at which the consuming application reports the total
match count together with the elapsed time. -/
theorem C3_single_terminal_completion
    (cfg : SearchConfig) (fs : Fs) (stop : Nat → Bool) (fuel : Nat)
    (roots : List Str) (exc : Option Str) (elapsed : Nat) :
    ∃ pre, fileSearchRun cfg fs stop fuel roots exc = pre ++ [Event.finishedEv] ∧
      (∀ ev ∈ pre, ∃ p, ev = Event.matchEv p) ∧
      Event.finishedEv ∉ pre ∧
      appRun elapsed (fileSearchRun cfg fs stop fuel roots exc) 0
        = some (pre.length, elapsed) := by
  refine ⟨(searchEmits cfg fs stop fuel roots ++ errStrs exc).map Event.matchEv,
    rfl, ?_, ?_, ?_⟩
  · intro ev hev
    rcases List.mem_map.mp hev with ⟨p, _, hp⟩
    exact ⟨p, hp.symm⟩
  · intro hmem
    rcases List.mem_map.mp hmem with ⟨p, _, hp⟩
    cases hp
  · rw [show fileSearchRun cfg fs stop fuel roots exc
        = (searchEmits cfg fs stop fuel roots ++ errStrs exc).map Event.matchEv
            ++ [Event.finishedEv] from rfl,
      appRun_skip_matches]
    simp [appRun]

/-- C7: the idle/termination detector concludes completion only after an
empty observation, the grace wait, and a second empty observation (and
cancellation only on an observed stop event); the subsequent shutdown pushes
exactly one stop sentinel per worker and waits for all workers before the
completion signal. -/
theorem C7_termination_detection
    (stop obs : Nat → Bool) (fuel t : Nat) (r : ExitReason) (u w : Nat)
    (h : coordLoop stop obs fuel t = some (r, u)) :
    (r = ExitReason.completed → 2 ≤ u ∧ obs (u - 1) = true ∧ obs u = true) ∧
    (r = ExitReason.cancelled → stop u = true) ∧
    countAct CAct.pushSentinel (coordShutdown w) = w ∧
    ∃ preActs, coordShutdown w = preActs ++ [CAct.waitWorkers, CAct.signalFinished] ∧
      ∀ a ∈ preActs, a = CAct.pushSentinel := by
  obtain ⟨h1, h2⟩ := coordLoop_exit stop obs fuel t r u h
  refine ⟨h1, h2, ?_, List.replicate w CAct.pushSentinel, rfl, ?_⟩
  · rw [coordShutdown, countAct_replicate_append,
      (by decide : countAct CAct.pushSentinel [CAct.waitWorkers, CAct.signalFinished] = 0)]
    omega
  · intro a ha
    exact List.eq_of_mem_replicate ha

/-- C7 witness: an always-empty queue with a clear stop event concludes
completion at observation 2, right after the consecutive empty observations
1 and 2. -/
theorem C7_termination_detection_witness :
    coordLoop (fun _ => false) (fun _ => true) 1 0 = some (ExitReason.completed, 2) ∧
    (2 ≤ 2 ∧ (fun _ : Nat => true) 1 = true ∧ (fun _ : Nat => true) 2 = true) ∧
    countAct CAct.pushSentinel (coordShutdown 3) = 3 :=
  ⟨by decide,
   (C7_termination_detection (fun _ => false) (fun _ => true) 1 0
     ExitReason.completed 2 3 (by decide)).1 rfl,
   ((C7_termination_detection (fun _ => false) (fun _ => true) 1 0
     ExitReason.completed 2 3 (by decide)).2).2.1⟩

/-- C8 counterexample: a failure of the run body is not surfaced as a
terminal error event distinct from normal completion — the trace of a run
whose body raised `boom` is a `found_file` match event carrying the error
text, followed by the ordinary `finished` completion event; the signal
vocabulary of `FileSearchThread` has no separate error event at all. -/
theorem C8_counterexample_error_surfaced_as_match :
    fileSearchRun cfgHit fsOneGood (fun _ => false) 0 [] (some ("boom".toList))
      = [Event.matchEv ("Error: boom".toList), Event.finishedEv] := by
  decide

/-- C8 amended: a run-body failure (such as a pool that cannot start) is
surfaced as a `found_file` match event carrying `Error: <text>` followed by
the single normal completion event, not by a distinct terminal error event;
and a search none of whose roots can be listed emits no matches and
completes normally. -/
theorem C8_amended_error_surfacing
    (cfg : SearchConfig) (fs : Fs) (stop : Nat → Bool) (fuel : Nat)
    (roots : List Str) (e : Str)
    (hroots : ∀ r ∈ roots, ∃ err, fs r = Except.error err) :
    searchEmits cfg fs stop fuel roots = [] ∧
    fileSearchRun cfg fs stop fuel roots (some e)
      = [Event.matchEv (("Error: ".toList : Str) ++ e), Event.finishedEv] ∧
    fileSearchRun cfg fs stop fuel roots none = [Event.finishedEv] := by
  have hemits : searchEmits cfg fs stop fuel roots = [] := by
    unfold searchEmits
    rw [workerRun_all_error cfg fs stop fuel 0 (roots.map some) ?hq]
    · rfl
    case hq =>
      intro d hd
      rcases List.mem_map.mp hd with ⟨r, hr, heq⟩
      injection heq with h'
      subst h'
      exact hroots r hr
  refine ⟨hemits, ?_, ?_⟩ <;> simp [fileSearchRun, hemits, errStrs]

/-- C8 amended witness: a single unlistable root. -/
theorem C8_amended_error_surfacing_witness :
    (∀ r ∈ [("/nope".toList : Str)], ∃ err, fsOneGood r = Except.error err) ∧
    (searchEmits cfgHit fsOneGood (fun _ => false) 3 ["/nope".toList] = [] ∧
     fileSearchRun cfgHit fsOneGood (fun _ => false) 3 ["/nope".toList]
         (some ("x".toList))
       = [Event.matchEv (("Error: ".toList : Str) ++ ("x".toList : Str)),
          Event.finishedEv] ∧
     fileSearchRun cfgHit fsOneGood (fun _ => false) 3 ["/nope".toList] none
       = [Event.finishedEv]) :=
  ⟨fun r hr => ⟨ListErr.permissionError, by rw [List.mem_singleton] at hr; subst hr; rfl⟩,
   C8_amended_error_surfacing cfgHit fsOneGood (fun _ => false) 3 ["/nope".toList]
     ("x".toList)
     (fun r hr => ⟨ListErr.permissionError, by rw [List.mem_singleton] at hr; subst hr; rfl⟩)⟩

theorem parse_extensions_error {text : Str} (htext : text.isEmpty = false)
    (hinv : invalidTokens text ≠ []) :
    parse_extensions text = Except.error (invalidTokens text) := by
  have hparts : (normTokens text).isEmpty = false := by
    cases hnt : normTokens text with
    | nil => exact absurd (by simp [invalidTokens, hnt]) hinv
    | cons a l => rfl
  have hinv' : (invalidTokens text).isEmpty = false := by
    cases hi : invalidTokens text with
    | nil => exact absurd hi hinv
    | cons a l => rfl
  simp only [parse_extensions, htext, hparts, hinv', Bool.false_eq_true, if_false]

theorem parse_extensions_ok_of_valid {text : Str} (hinv : invalidTokens text = []) :
    ∃ v, parse_extensions text = Except.ok v := by
  unfold parse_extensions
  by_cases h1 : text.isEmpty = true
  · exact ⟨none, by simp [h1]⟩
  · simp only [Bool.not_eq_true] at h1
    simp only [h1, Bool.false_eq_true, if_false]
    by_cases h2 : (normTokens text).isEmpty = true
    · exact ⟨none, by simp [h2]⟩
    · simp only [Bool.not_eq_true] at h2
      simp only [h2, Bool.false_eq_true, if_false, hinv]
      exact ⟨some (normTokens text), by simp⟩

/-- C5 amended: `parse_extensions` normalizes each kept token by stripping
surrounding whitespace and ALL leading dots (not just one); when some
normalized token is not purely alphanumeric, starting the search raises a
configuration error whose message names every invalid normalized token and
no search thread is created, and when every normalized token is
alphanumeric, validation succeeds and the search starts. -/
theorem C5_amended_validation
    (queryText extText : Str) (cs : Bool)
    (hq : (pyStrip queryText).isEmpty = false)
    (hext : (pyStrip extText).isEmpty = false) :
    (invalidTokens (pyStrip extText) ≠ [] →
       start_search queryText extText cs
         = StartResult.configError (errMessage (invalidTokens (pyStrip extText))) ∧
       ∀ tok ∈ invalidTokens (pyStrip extText),
         containsSub tok (errMessage (invalidTokens (pyStrip extText))) = true) ∧
    (invalidTokens (pyStrip extText) = [] →
       ∃ cfg, start_search queryText extText cs = StartResult.started cfg) := by
  constructor
  · intro hinv
    refine ⟨?_, fun tok htok => containsSub_errMessage htok⟩
    unfold start_search
    simp only [hq, Bool.false_eq_true, if_false, hext, Bool.not_false, if_true]
    rw [parse_extensions_error hext hinv]
  · intro hinv
    obtain ⟨v, hv⟩ := parse_extensions_ok_of_valid hinv
    refine ⟨⟨pyStrip queryText, cs, initAllowedExts v⟩, ?_⟩
    unfold start_search
    simp only [hq, Bool.false_eq_true, if_false, hext, Bool.not_false, if_true]
    rw [hv]

/-- C5 witness: the input `a-b` is rejected with a message naming `a-b`,
exercising the error half; the success half holds vacuously here. -/
theorem C5_amended_validation_witness :
    (pyStrip ("q".toList)).isEmpty = false ∧
    (pyStrip ("a-b".toList)).isEmpty = false ∧
    ((invalidTokens (pyStrip ("a-b".toList)) ≠ [] →
       start_search ("q".toList) ("a-b".toList) false
         = StartResult.configError (errMessage (invalidTokens (pyStrip ("a-b".toList)))) ∧
       ∀ tok ∈ invalidTokens (pyStrip ("a-b".toList)),
         containsSub tok (errMessage (invalidTokens (pyStrip ("a-b".toList)))) = true) ∧
     (invalidTokens (pyStrip ("a-b".toList)) = [] →
       ∃ cfg, start_search ("q".toList) ("a-b".toList) false
         = StartResult.started cfg)) :=
  ⟨rfl, rfl, C5_amended_validation ("q".toList) ("a-b".toList) false rfl rfl⟩

/-- C5 counterexample: the input `..py` contains a token that is not purely
alphanumeric after stripping ONE optional leading dot (it is then `.py`),
so by the claim the start should raise a configuration error; the code
strips EVERY leading dot, validates the token as `py`, and starts the
search. -/
theorem C5_counterexample_multiple_leading_dots :
    claimTokenInvalid ("..py".toList) = true ∧
    parse_extensions ("..py".toList) = Except.ok (some ["py".toList]) ∧
    start_search ("a".toList) ("..py".toList) false
      = StartResult.started ⟨"a".toList, false, some ["py".toList]⟩ :=
  ⟨by decide, rfl, rfl⟩

/-- C10 counterexample: for the dotfile `.gitignore` the extension the code
uses for filtering is empty, not the lower-cased final dot-suffix
`gitignore`; with the filter `{gitignore}` the code therefore rejects the
file that the claim would accept. -/
theorem C10_counterexample_dotfile :
    codeFilterExt (".gitignore".toList) = [] ∧
    specExt (".gitignore".toList) = ("gitignore".toList : Str) ∧
    extFilterOk (some ["gitignore".toList]) (".gitignore".toList) = false := by
  refine ⟨?_, ?_, ?_⟩ <;> decide

/-- C10 amended: the filtering extension is the lower-cased final dot-suffix
whenever some character before the last dot is not itself a dot; a filename
whose characters before its last dot are all dots (a dotfile) and a dotless
filename have empty extension; `archive.tar.gz` has extension `gz` and is
rejected by the filter `{tar}`; and a dotless filename is rejected by every
configured nonempty filter with nonempty tokens. -/
theorem C10_amended_extension_semantics :
    (∀ (name : Str) (i : Nat), lastDotIdx name = some i →
       (name.take i).any (fun c => !(c = '.')) = true →
       codeFilterExt name = specExt name) ∧
    (∀ (name : Str) (i : Nat), lastDotIdx name = some i →
       (name.take i).any (fun c => !(c = '.')) = false →
       codeFilterExt name = []) ∧
    (∀ name : Str, lastDotIdx name = none → codeFilterExt name = []) ∧
    codeFilterExt ("archive.tar.gz".toList) = ("gz".toList : Str) ∧
    extFilterOk (some ["tar".toList]) ("archive.tar.gz".toList) = false ∧
    (∀ (name : Str) (exts : List Str), lastDotIdx name = none →
       exts ≠ [] → ([] : Str) ∉ exts →
       extFilterOk (some exts) name = false) := by
  refine ⟨codeFilterExt_eq_specExt, ?_, fun name h => codeFilterExt_nodot h,
    by decide, by decide, ?_⟩
  · intro name i hidx hall
    simp [codeFilterExt, splitextExt, hidx, hall, pyLower, lstripDots]
  intro name exts hdot hne hnil
  have hext : codeFilterExt name = [] := codeFilterExt_nodot hdot
  simp only [extFilterOk, hext]
  cases exts with
  | nil => exact absurd rfl hne
  | cons x xs =>
      simp only [List.isEmpty_cons, Bool.false_or]
      rw [← Bool.not_eq_true]
      intro hc
      exact hnil (by simpa using hc)

/-- C10 amended witness: `a.b` has a non-dot character before its last dot,
so the code extension and the claim extension agree there; `..foo` has only
dots before its last dot, so its code extension is empty. -/
theorem C10_amended_extension_semantics_witness :
    (lastDotIdx ("a.b".toList) = some 1 ∧
     ((("a.b".toList : Str)).take 1).any (fun c => !(c = '.')) = true ∧
     codeFilterExt ("a.b".toList) = specExt ("a.b".toList)) ∧
    (lastDotIdx ("..foo".toList) = some 1 ∧
     ((("..foo".toList : Str)).take 1).any (fun c => !(c = '.')) = false ∧
     codeFilterExt ("..foo".toList) = []) :=
  ⟨⟨by decide, by decide,
    C10_amended_extension_semantics.1 ("a.b".toList) 1 (by decide) (by decide)⟩,
   ⟨by decide, by decide,
    C10_amended_extension_semantics.2.1 ("..foo".toList) 1 (by decide) (by decide)⟩⟩

end FileFinder
